import Mathlib

/-!
Verification of the centralized event-routing core and the corpus-pruning
stage of LibAFL, against a shallow embedding of
`src/libafl/src/events/centralized.rs` and `src/libafl/src/stages/pruning.rs`.

Modelling conventions:
* External collaborators (inner event manager, transport, hooks, evaluator,
  observer codec) are modelled as an explicit environment; the embedding
  records every call made to them, in order, as a list of actions.
* Serialization (postcard) and compression (gzip) are modelled as exact:
  a message on the channel carries the event its payload decodes to.
  The codec and collaborator error paths (spec section 7) are propagated
  verbatim by the source and are not needed by the claims checked here.
* Machine integers are modelled as Nat, with an explicit `% 2 ^ 32` where the
  source performs an `as u32` cast.
* The f64 retention probability of the pruning stage enters the code only
  through the comparison (prob * 100 as f64) < r. Finite f64 values are
  exact rationals, f64 comparison agrees with the rational order on those
  values, and r as f64 is exact, so the comparison is modelled exactly by a
  rational threshold t: the value of the rounded f64 product. The product
  equals p * 100 exactly at the probabilities 0 and 1 the concrete runs
  exercise, but can round below the mathematical product elsewhere: at
  prob = 0.29 the f64 product is 29 - 2 ^ (-48), just below 29.
-/

namespace Centralized

/-- Events routed by the manager. Modelled from the spec: the `Event` enum
itself lives outside `src/` (only `events/centralized.rs` is available); the
variants and the `NewTestcase` fields follow spec section 3. All variants other
than `NewTestcase`, `UpdateExecStats` and `Stop` are routed identically by the
code under `src/` (they hit wildcard match arms), so they are collapsed into a
single `other` constructor indexed by a number. Field types are abstracted:
`input` is a type parameter, the remaining metadata fields are numbers, and
`observersBuf` is an optional byte buffer. -/
inductive Event (I : Type) where
  | newTestcase (input : I) (clientConfig : Nat) (exitKind : Nat) (corpusSize : Nat)
      (observersBuf : Option (List Nat)) (time : Nat) (executions : Nat)
      (forwardId : Option Nat)
  | updateExecStats (time : Nat) (executions : Nat)
  | stop
  | other (variant : Nat)
  deriving DecidableEq

/-- True exactly on the `NewTestcase` variant. -/
def Event.isNewTestcase {I : Type} : Event I → Bool
  | .newTestcase .. => true
  | _ => false

/-- True exactly on the `UpdateExecStats` variant. -/
def Event.isUpdateExecStats {I : Type} : Event I → Bool
  | .updateExecStats .. => true
  | _ => false

/-- True exactly on the `Stop` variant. -/
def Event.isStop {I : Type} : Event I → Bool
  | .stop => true
  | _ => false

/-- Variant name, standing in for `Event::name()` (defined outside `src/`);
only its role as the payload of the illegal-message error matters here. -/
def Event.variantName {I : Type} : Event I → String
  | .newTestcase .. => "Testcase"
  | .updateExecStats .. => "Stats"
  | .stop => "Stop"
  | .other _ => "Other"

/-- One observable call made by the manager to an external collaborator:
a send on the centralized channel (`forward_to_main` performs exactly one
`send_buf`/`send_buf_with_flags`), a `fire` on the inner manager, one of the
two fuzzer evaluation entry points, the `on_fire_all` hook dispatch, or
`state.request_stop()`. -/
inductive Action (I Obs : Type) where
  | sendCentral (e : Event I)
  | innerFire (e : Event I)
  | evalExecution (input : I) (observers : Obs) (exitKind : Nat) (add : Bool)
  | evalInput (input : I) (add : Bool)
  | hookOnFireAll (clientId : Nat) (e : Event I)
  | requestStop
  deriving DecidableEq

/-- Modulus of the `as u32` cast. -/
def u32Mod : Nat := 2 ^ 32

/-- `fire` (centralized.rs lines 209-240). On a secondary (`is_main = false`):
a `NewTestcase` gets `forward_id` overwritten with
`Some(ClientId(self.inner.mgr_id().0 as u32))`, is forwarded to the
centralized channel, and returns early (no inner fire); `UpdateExecStats` and
`Stop` are forwarded and then also fired on the inner manager; every other
variant only reaches the inner manager. On the main, every event goes to the
inner manager unchanged. The returned list is the sequence of collaborator
calls. -/
def fire {I Obs : Type} (isMain : Bool) (mgrId : Nat) (event : Event I) :
    List (Action I Obs) :=
  if !isMain then
    match event with
    | .newTestcase input cc ek cs ob t ex _fid =>
        [.sendCentral (.newTestcase input cc ek cs ob t ex (some (mgrId % u32Mod)))]
    | .updateExecStats t ex =>
        [.sendCentral (.updateExecStats t ex), .innerFire (.updateExecStats t ex)]
    | .stop => [.sendCentral .stop, .innerFire .stop]
    | ev => [.innerFire ev]
  else
    [.innerFire event]

/-- Events sent on the centralized channel within an action sequence. -/
def sentCentral {I Obs : Type} (as : List (Action I Obs)) : List (Event I) :=
  as.filterMap fun a => match a with | .sendCentral e => some e | _ => none

/-- Events fired on the inner manager within an action sequence. -/
def innerFired {I Obs : Type} (as : List (Action I Obs)) : List (Event I) :=
  as.filterMap fun a => match a with | .innerFire e => some e | _ => none

/-- The fuzzer-evaluation calls within an action sequence. -/
def evalCalls {I Obs : Type} (as : List (Action I Obs)) : List (Action I Obs) :=
  as.filter fun a =>
    match a with
    | .evalExecution .. => true
    | .evalInput .. => true
    | _ => false

/-- The hook `on_fire_all` invocations within an action sequence. -/
def hookCalls {I Obs : Type} (as : List (Action I Obs)) : List (Nat × Event I) :=
  as.filterMap fun a => match a with | .hookOnFireAll c e => some (c, e) | _ => none

/-- Number of `request_stop` calls within an action sequence. -/
def requestStopCount {I Obs : Type} (as : List (Action I Obs)) : Nat :=
  as.countP fun a => match a with | .requestStop => true | _ => false

/-- Environment of external collaborators used by the main evaluator.
Modelled from the spec: `EventConfig::match_with`, observer deserialization,
and the two `Fuzzer` evaluation entry points live outside `src/`
(spec sections 3 and 6). The evaluator functions return the accepted-id
component `res.1` of the pair the fuzzer returns. Collaborators are modelled
on their successful paths; their own `Err` results are propagated verbatim by
the source (spec section 7) and are not needed by the claims checked here. -/
structure Env (I Obs : Type) where
  configuration : Nat
  matchWith : Nat → Nat → Bool
  deserObs : List Nat → Obs
  evaluateExecution : I → Obs → Nat → Bool → Option Nat
  evaluateInputWithObservers : I → Bool → Option Nat

/-- Error returned (as a Rust `Err`) by `handle_in_main`. -/
inductive MainError where
  | illegalEvent (variantName : String)
  deriving DecidableEq

/-- `handle_in_main` (centralized.rs lines 455-572). Returns the Rust result
together with the ordered list of collaborator calls. For a `NewTestcase`:
when `client_config` matches the local configuration and `observers_buf` is
present, the observers are deserialized and `evaluate_execution` is called
with them, the received exit kind and `add = false`; otherwise
`evaluate_input_with_observers` is called with `add = false`. When the
evaluator returns an accepted id, an event with the identical fields is
rebuilt, `hooks.on_fire_all` runs on it, and it is fired on the inner
manager; otherwise nothing further happens. `Stop` requests a stop. Any
other variant is an illegal message and produces an error. -/
def handleInMain {I Obs : Type} (env : Env I Obs) (clientId : Nat) (event : Event I) :
    Except MainError Unit × List (Action I Obs) :=
  match event with
  | .newTestcase input cc ek cs ob t ex fid =>
      if env.matchWith cc env.configuration && ob.isSome then
        let observers := env.deserObs (ob.getD [])
        match env.evaluateExecution input observers ek false with
        | some _ =>
            let ev : Event I := .newTestcase input cc ek cs ob t ex fid
            (.ok (), [.evalExecution input observers ek false,
              .hookOnFireAll clientId ev, .innerFire ev])
        | none => (.ok (), [.evalExecution input observers ek false])
      else
        match env.evaluateInputWithObservers input false with
        | some _ =>
            let ev : Event I := .newTestcase input cc ek cs ob t ex fid
            (.ok (), [.evalInput input false, .hookOnFireAll clientId ev, .innerFire ev])
        | none => (.ok (), [.evalInput input false])
  | .stop => (.ok (), [.requestStop])
  | ev => (.error (.illegalEvent ev.variantName), [])

/-- The accepted-id option the evaluator returns inside `handle_in_main`
(`res.1` at line 533) for a given event; `none` for non-testcase events. -/
def evalOutcome {I Obs : Type} (env : Env I Obs) : Event I → Option Nat
  | .newTestcase input cc ek _cs ob _t _ex _fid =>
      if env.matchWith cc env.configuration && ob.isSome then
        env.evaluateExecution input (env.deserObs (ob.getD [])) ek false
      else
        env.evaluateInputWithObservers input false
  | _ => none

/-- The tag stamped on every centralized-channel message
(`_LLMP_TAG_TO_MAIN`, centralized.rs line 50). -/
def LLMP_TAG_TO_MAIN : Nat := 0x3453453

/-- A message as returned by `recv_buf_with_flags`. The payload is modelled
by the event it decodes to (serialization and optional compression are exact,
spec section 4.2). -/
structure Msg (I : Type) where
  clientId : Nat
  tag : Nat
  flags : Nat
  event : Event I
  deriving DecidableEq

/-- Outcome of the main drain loop: a successfully returned count, a returned
Rust `Err`, or an aborted `assert!` (a panic, which never returns to the
caller). -/
inductive DrainResult where
  | ok (count : Nat)
  | err (e : MainError)
  | assertFail (msg : String)
  deriving DecidableEq

/-- True exactly when the drain returned a Rust `Err` to its caller. -/
def DrainResult.isReturnedErr : DrainResult → Bool
  | .err _ => true
  | _ => false

/-- True exactly when the drain died on a failed `assert!`. -/
def DrainResult.isAssertFail : DrainResult → Bool
  | .assertFail _ => true
  | _ => false

/-- Full observable outcome of one `process`/`receive_from_secondary` call:
the result, the client ids whose payloads were deserialized (line 446), the
`handle_in_main` invocations in order, all collaborator calls, and the
messages left unconsumed on the channel. -/
structure DrainOut (I Obs : Type) where
  result : DrainResult
  decoded : List Nat
  handled : List (Nat × Event I)
  actions : List (Action I Obs)
  remaining : List (Msg I)
  deriving DecidableEq

/-- Message of the failed tag assertion (centralized.rs line 429). -/
def assertMsgToMain : String :=
  "Only _LLMP_TAG_TO_MAIN parcel should have arrived in the main node!"

/-- `receive_from_secondary` (centralized.rs lines 409-452). Messages are
drained in order: a tag other than `_LLMP_TAG_TO_MAIN` hits the `assert!`
(lines 427-430) and aborts; a message from the drain's own sender id is
skipped before any decoding (lines 432-434); otherwise the payload is decoded
and passed to `handle_in_main`, whose error aborts the drain, and the count is
incremented. -/
def receiveFromSecondary {I Obs : Type} (env : Env I Obs) (selfId : Nat) :
    List (Msg I) → DrainOut I Obs
  | [] => ⟨.ok 0, [], [], [], []⟩
  | m :: rest =>
      if m.tag = LLMP_TAG_TO_MAIN then
        if m.clientId = selfId then
          receiveFromSecondary env selfId rest
        else
          match handleInMain env m.clientId m.event with
          | (.ok _, acts) =>
              let o := receiveFromSecondary env selfId rest
              ⟨match o.result with | .ok n => .ok (n + 1) | r => r,
                m.clientId :: o.decoded, (m.clientId, m.event) :: o.handled,
                acts ++ o.actions, o.remaining⟩
          | (.error e, acts) =>
              ⟨.err e, [m.clientId], [(m.clientId, m.event)], acts, rest⟩
      else
        ⟨.assertFail assertMsgToMain, [], [], [], rest⟩

/-- `process` (centralized.rs lines 295-304): the main drains the centralized
channel; a secondary delegates to the inner manager, whose returned count is a
parameter and whose own channel is not modelled. -/
def process {I Obs : Type} (env : Env I Obs) (isMain : Bool) (selfId : Nat)
    (msgs : List (Msg I)) (innerCount : Nat) : DrainOut I Obs :=
  if isMain then receiveFromSecondary env selfId msgs
  else ⟨.ok innerCount, [], [], [], msgs⟩

/-- A concrete environment over numeric inputs and trivial observers, used to
instantiate witnesses and counterexamples. -/
def env0 : Env Nat Unit :=
  { configuration := 0
    matchWith := fun a b => a == b
    deserObs := fun _ => ()
    evaluateExecution := fun _ _ _ _ => some 0
    evaluateInputWithObservers := fun _ _ => none }

/-- A message bearing a tag that is not `LLMP_TAG_TO_MAIN`. -/
def badTagMsg : Msg Nat := ⟨5, 0xDEADBEEF, 1, .stop⟩

/-- A well-formed `Stop` message from client 3. -/
def goodMsg : Msg Nat := ⟨3, LLMP_TAG_TO_MAIN, 1, .stop⟩

/-- Messages used by the self-skip witness: an echo of the drain's own id
followed by a foreign message. -/
def selfSkipMsgs : List (Msg Nat) :=
  [⟨7, LLMP_TAG_TO_MAIN, 1, .stop⟩, ⟨3, LLMP_TAG_TO_MAIN, 1, .stop⟩]

/-- C1: on a non-main manager, `fire` sends exactly one message on the
centralized transport iff the event is `NewTestcase`, `UpdateExecStats` or
`Stop`, and fires exactly once on the inner manager iff the event is not a
`NewTestcase`. -/
theorem fire_secondary_routing {I Obs : Type} (mgrId : Nat) (ev : Event I) :
    ((sentCentral (@fire I Obs false mgrId ev)).length = 1 ↔
      (ev.isNewTestcase = true ∨ ev.isUpdateExecStats = true ∨ ev.isStop = true)) ∧
    ((innerFired (@fire I Obs false mgrId ev)).length = 1 ↔
      ¬(ev.isNewTestcase = true)) := by
  cases ev <;>
    simp [fire, sentCentral, innerFired, Event.isNewTestcase, Event.isUpdateExecStats,
      Event.isStop, List.filterMap]

/-- C2 (counterexample): the stamped `forward_id` is the `as u32` truncation
of the inner manager's id, not the id itself: with `mgr_id = 2 ^ 32` the
forwarded testcase carries `forward_id = some 0`, and `2 ^ 32 ≠ 0`. -/
theorem fire_forward_id_truncates :
    sentCentral (@fire Nat Unit false (2 ^ 32)
        (.newTestcase 7 1 2 3 none 4 5 none)) =
      [.newTestcase 7 1 2 3 none 4 5 (some 0)] ∧ (2 ^ 32 : Nat) ≠ 0 := by
  constructor
  · rfl
  · decide

/-- Helper: the complete call log of `handle_in_main` on a `NewTestcase`,
split into the evaluation call chosen by the branch at line 494 and the
hook-plus-republish suffix emitted exactly when the evaluator accepted. -/
theorem handleInMain_newTestcase_eq {I Obs : Type} (env : Env I Obs) (cid : Nat)
    (input : I) (cc ek cs : Nat) (ob : Option (List Nat)) (t ex : Nat) (fid : Option Nat) :
    handleInMain env cid (.newTestcase input cc ek cs ob t ex fid) =
      (.ok (),
        (if env.matchWith cc env.configuration && ob.isSome then
          [Action.evalExecution input (env.deserObs (ob.getD [])) ek false]
        else [Action.evalInput input false]) ++
        (if (evalOutcome env (.newTestcase input cc ek cs ob t ex fid)).isSome then
          [Action.hookOnFireAll cid (Event.newTestcase input cc ek cs ob t ex fid),
           Action.innerFire (Event.newTestcase input cc ek cs ob t ex fid)]
        else [])) := by
  cases h : env.matchWith cc env.configuration && ob.isSome
  · cases hr : env.evaluateInputWithObservers input false <;>
      simp [handleInMain, evalOutcome, h, hr]
  · cases hr : env.evaluateExecution input (env.deserObs (ob.getD [])) ek false <;>
      simp [handleInMain, evalOutcome, h, hr]

/-- C2 (amended): every `NewTestcase` a non-main manager sends on the
centralized channel carries `forward_id = some (mgr_id % 2 ^ 32)` — the
`as u32` truncation of the sending manager's id, equal to the id itself
whenever it is below `2 ^ 32` — regardless of the `forward_id` the event had
when `fire` was called. -/
theorem fire_stamps_forward_id {I Obs : Type} (mgrId : Nat) (input : I)
    (cc ek cs : Nat) (ob : Option (List Nat)) (t ex : Nat) (fid : Option Nat) :
    sentCentral (@fire I Obs false mgrId (.newTestcase input cc ek cs ob t ex fid)) =
      [.newTestcase input cc ek cs ob t ex (some (mgrId % u32Mod))] := by
  simp [fire, sentCentral]

/-- C4: on a `NewTestcase`, `handle_in_main` returns Ok; the inner manager
observes a `fire(NewTestcase)` exactly when the evaluator returned an
accepted id, and the republished event's fields equal the received event's
fields; `on_fire_all` runs exactly once, on that same event, and precedes the
republish in the call order; when the evaluator returns `none`, nothing is
republished and no hook runs. -/
theorem handleInMain_newTestcase_republish {I Obs : Type} (env : Env I Obs) (cid : Nat)
    (input : I) (cc ek cs : Nat) (ob : Option (List Nat)) (t ex : Nat) (fid : Option Nat) :
    (handleInMain env cid (.newTestcase input cc ek cs ob t ex fid)).1 = .ok () ∧
    innerFired (handleInMain env cid (.newTestcase input cc ek cs ob t ex fid)).2 =
      (if (evalOutcome env (.newTestcase input cc ek cs ob t ex fid)).isSome then
        [Event.newTestcase input cc ek cs ob t ex fid] else []) ∧
    hookCalls (handleInMain env cid (.newTestcase input cc ek cs ob t ex fid)).2 =
      (if (evalOutcome env (.newTestcase input cc ek cs ob t ex fid)).isSome then
        [(cid, Event.newTestcase input cc ek cs ob t ex fid)] else []) ∧
    List.Sublist
      (if (evalOutcome env (.newTestcase input cc ek cs ob t ex fid)).isSome then
        [Action.hookOnFireAll cid (Event.newTestcase input cc ek cs ob t ex fid),
         Action.innerFire (Event.newTestcase input cc ek cs ob t ex fid)] else [])
      (handleInMain env cid (.newTestcase input cc ek cs ob t ex fid)).2 := by
  rw [handleInMain_newTestcase_eq]
  refine ⟨rfl, ?_, ?_, ?_⟩
  · cases hs : (evalOutcome env (.newTestcase input cc ek cs ob t ex fid)).isSome <;>
      cases h : env.matchWith cc env.configuration && ob.isSome <;>
        simp [innerFired, h, hs]
  · cases hs : (evalOutcome env (.newTestcase input cc ek cs ob t ex fid)).isSome <;>
      cases h : env.matchWith cc env.configuration && ob.isSome <;>
        simp [hookCalls, h, hs]
  · cases hs : (evalOutcome env (.newTestcase input cc ek cs ob t ex fid)).isSome
    · simp [hs]
    · simp only [hs, if_true]
      exact List.sublist_append_right _ _

/-- C5: for every `NewTestcase` handled in `handle_in_main`, when
`client_config` matches the local configuration and `observers_buf` is
present, the one evaluation call is `evaluate_execution` with the
deserialized observers, the received exit kind and `add = false` (no
re-execution); in every other case the one evaluation call is
`evaluate_input_with_observers` with `add = false`. -/
theorem handleInMain_newTestcase_dispatch {I Obs : Type} (env : Env I Obs) (cid : Nat)
    (input : I) (cc ek cs : Nat) (ob : Option (List Nat)) (t ex : Nat) (fid : Option Nat) :
    evalCalls (handleInMain env cid (.newTestcase input cc ek cs ob t ex fid)).2 =
      (if env.matchWith cc env.configuration && ob.isSome then
        [Action.evalExecution input (env.deserObs (ob.getD [])) ek false]
      else [Action.evalInput input false]) := by
  rw [handleInMain_newTestcase_eq]
  cases hs : (evalOutcome env (.newTestcase input cc ek cs ob t ex fid)).isSome <;>
    cases h : env.matchWith cc env.configuration && ob.isSome <;>
      simp [evalCalls, h, hs]

/-- C7: `handle_in_main` on a `Stop` event returns Ok after exactly one
`request_stop` call, firing nothing on the inner manager and sending nothing
on the centralized channel. -/
theorem handleInMain_stop {I Obs : Type} (env : Env I Obs) (cid : Nat) :
    (handleInMain env cid .stop).1 = .ok () ∧
    requestStopCount (handleInMain env cid .stop).2 = 1 ∧
    innerFired (handleInMain env cid .stop).2 = [] ∧
    sentCentral (handleInMain env cid .stop).2 = [] := by
  refine ⟨rfl, rfl, rfl, rfl⟩

/-- C6: the main drain never deserializes or handles a message bearing its
own sender id, and when `process` returns a count, that count equals the
number of messages handled, which is the number of non-self messages
received. -/
theorem drain_self_skip {I Obs : Type} (env : Env I Obs) (selfId : Nat)
    (msgs : List (Msg I)) :
    (process env true selfId msgs 0).handled.countP (fun pr => pr.1 == selfId) = 0 ∧
    (process env true selfId msgs 0).decoded.countP (fun c => c == selfId) = 0 ∧
    ∀ n : Nat, (process env true selfId msgs 0).result = .ok n →
      n = (process env true selfId msgs 0).handled.length ∧
      n = msgs.countP (fun m => m.clientId != selfId) := by
  simp only [process, if_pos]
  induction msgs with
  | nil =>
      refine ⟨rfl, rfl, fun n hn => ?_⟩
      simp [receiveFromSecondary] at hn
      simp [receiveFromSecondary, ← hn]
  | cons m rest ih =>
      by_cases ht : m.tag = LLMP_TAG_TO_MAIN
      · by_cases hc : m.clientId = selfId
        · have hstep : receiveFromSecondary env selfId (m :: rest) =
              receiveFromSecondary env selfId rest := by
            simp [receiveFromSecondary, ht, hc]
          rw [hstep]
          refine ⟨ih.1, ih.2.1, fun n hn => ?_⟩
          rcases ih.2.2 n hn with ⟨h1, h2⟩
          refine ⟨h1, ?_⟩
          simpa [List.countP_cons, hc] using h2
        · rcases hres : handleInMain env m.clientId m.event with ⟨r, acts⟩
          cases r with
          | ok u =>
              have hstep : receiveFromSecondary env selfId (m :: rest) =
                  ⟨match (receiveFromSecondary env selfId rest).result with
                    | .ok n => .ok (n + 1) | r => r,
                   m.clientId :: (receiveFromSecondary env selfId rest).decoded,
                   (m.clientId, m.event) ::
                     (receiveFromSecondary env selfId rest).handled,
                   acts ++ (receiveFromSecondary env selfId rest).actions,
                   (receiveFromSecondary env selfId rest).remaining⟩ := by
                simp [receiveFromSecondary, ht, hc, hres]
              rw [hstep]
              refine ⟨?_, ?_, fun n hn => ?_⟩
              · simpa [List.countP_cons, hc] using ih.1
              · simpa [List.countP_cons, hc] using ih.2.1
              · rcases ho : (receiveFromSecondary env selfId rest).result with
                  k | e | s
                · simp only [ho, DrainResult.ok.injEq] at hn
                  rcases ih.2.2 k ho with ⟨h1, h2⟩
                  constructor
                  · simp [← hn, h1]
                  · simp [← hn, List.countP_cons, hc, ← h2]
                · simp [ho] at hn
                · simp [ho] at hn
          | error e =>
              have hstep : receiveFromSecondary env selfId (m :: rest) =
                  ⟨.err e, [m.clientId], [(m.clientId, m.event)], acts, rest⟩ := by
                simp [receiveFromSecondary, ht, hc, hres]
              rw [hstep]
              refine ⟨?_, ?_, fun n hn => ?_⟩
              · simp [List.countP_cons, hc]
              · simp [List.countP_cons, hc]
              · simp at hn
      · have hstep : receiveFromSecondary env selfId (m :: rest) =
            ⟨.assertFail assertMsgToMain, [], [], [], rest⟩ := by
          simp [receiveFromSecondary, ht]
        rw [hstep]
        refine ⟨rfl, rfl, fun n hn => ?_⟩
        simp at hn

/-- C6 (witness): with self id 7, the echo message from client 7 is skipped
and the drain returns 1 for the single foreign message. -/
theorem drain_self_skip_witness :
    (process env0 true 7 selfSkipMsgs 0).handled.countP (fun pr => pr.1 == 7) = 0 ∧
    1 = (process env0 true 7 selfSkipMsgs 0).handled.length ∧
    1 = selfSkipMsgs.countP (fun m => m.clientId != 7) :=
  ⟨(drain_self_skip env0 7 selfSkipMsgs).1,
   (drain_self_skip env0 7 selfSkipMsgs).2.2 1 (by decide)⟩

/-- C3 (counterexample): a message tagged `0xDEADBEEF` makes the drain die on
the failed `assert!` at centralized.rs line 427; `process` does not return an
`Err` to its caller, as the claim states, but panics. -/
theorem drain_bad_tag_not_returned_err :
    (process env0 true 0 [badTagMsg] 0).result.isReturnedErr = false ∧
    (process env0 true 0 [badTagMsg] 0).result.isAssertFail = true ∧
    (process env0 true 0 [badTagMsg] 0).remaining = [] := by
  decide

/-- C3 (amended): when the main drain receives a message whose tag is not
`_LLMP_TAG_TO_MAIN` (0x3453453), `process` aborts through the failed
assertion — a panic rather than a returned error — and consumes no further
messages. -/
theorem drain_bad_tag_asserts {I Obs : Type} (env : Env I Obs) (selfId : Nat)
    (m : Msg I) (rest : List (Msg I)) (innerCount : Nat)
    (h : m.tag ≠ LLMP_TAG_TO_MAIN) :
    process env true selfId (m :: rest) innerCount =
      ⟨.assertFail assertMsgToMain, [], [], [], rest⟩ := by
  simp [process, receiveFromSecondary, h]

/-- C3 (witness): the amended statement at a concrete bad-tag message
followed by one further message, which is left unconsumed. -/
theorem drain_bad_tag_asserts_witness :
    process env0 true 0 [badTagMsg, goodMsg] 0 =
      ⟨.assertFail assertMsgToMain, [], [], [], [goodMsg]⟩ :=
  drain_bad_tag_asserts env0 0 badTagMsg [goodMsg] 0 (by decide)

end Centralized

namespace Pruning

/-- A corpus, partitioned into active entries (with their corpus ids) and
disabled entries. Modelled from the spec: the `Corpus` trait lives outside
`src/`; the active set maps ids to testcases and the disabled set keeps
testcases excluded from scheduling (spec sections 3 and 6 and glossary). -/
structure PruningCorpus (A : Type) where
  active : List (Nat × A)
  disabled : List A
  deriving DecidableEq

/-- Modelled from the spec: `Corpus::count_all()` counts active plus disabled
entries. -/
def countAll {A : Type} (c : PruningCorpus A) : Nat :=
  c.active.length + c.disabled.length

/-- Modelled from the spec: `Corpus::count()` counts active entries. -/
def corpusCount {A : Type} (c : PruningCorpus A) : Nat :=
  c.active.length

/-- Error from a failing corpus mutation (spec section 7: pruning errors
propagate, no retry). -/
inductive PruneError where
  | idNotFound (id : Nat)
  deriving DecidableEq

/-- Modelled from the spec: `Corpus::remove(id)` extracts the active entry
with the given id, failing when no such entry exists. -/
def removeFromCorpus {A : Type} (c : PruningCorpus A) (id : Nat) :
    Except PruneError (A × PruningCorpus A) :=
  match c.active.find? (fun q => q.1 == id) with
  | some q => .ok (q.2, ⟨c.active.eraseP (fun q => q.1 == id), c.disabled⟩)
  | none => .error (.idNotFound id)

/-- Modelled from the spec: `Corpus::add_disabled` appends a testcase to the
disabled set. -/
def addDisabled {A : Type} (c : PruningCorpus A) (e : A) : PruningCorpus A :=
  ⟨c.active, c.disabled ++ [e]⟩

/-- The per-entry decision of `CorpusPruning::perform` (pruning.rs lines
63-66): entry `i` is selected when `prob * 100 < r`, with `r` the i-th
`below(100)` result, modelled as `draws i % 100` for an arbitrary draw
stream (the spec's `rand_mut().below(bound)` yields a value below the
bound). The source pushes this flag onto the misnamed `do_retain` vector:
`true` means the entry is moved to the disabled set. The multiplication here
is exact rational arithmetic; it matches the source's f64 product exactly
when `p * 100` is f64-representable — in particular at the probabilities 0
and 1 exercised by the concrete theorems. For arbitrary probabilities the
faithful form is `doRetainAt`, which takes the rounded product's value
directly. -/
def doRetainFun (p : ℚ) (draws : Nat → Nat) (i : Nat) : Bool :=
  decide (p * 100 < ((draws i % 100 : Nat) : ℚ))

/-- The pruning decision against the threshold `t`: the exact rational value
of the f64 product `self.prob * (100 as f64)` (pruning.rs line 65). Every
finite f64 value is an exact rational, the f64 order agrees with the
rational order of those values, and `r as f64` is exact, so comparing
against the rational `t` replays the source comparison exactly for every
probability; the only f64 operation not replayed is the product's rounding,
which fixes `t` (at prob = 0.29 the product rounds to `29 - 2 ^ (-48)`,
just below 29). -/
def doRetainAt (t : ℚ) (draws : Nat → Nat) (i : Nat) : Bool :=
  decide (t < ((draws i % 100 : Nat) : ℚ))

/-- The mutation loop of `perform` (pruning.rs lines 68-74): for each index
in order, a selected entry is moved from active to disabled; a failing
removal stops the loop at once, handing back the corpus state reached so far
together with the error (the Rust loop mutates the corpus in place and the
question-mark operator propagates the first error). -/
def pruneLoop {A : Type} (f : Nat → Bool) :
    List Nat → PruningCorpus A → PruningCorpus A × Option PruneError
  | [], c => (c, none)
  | idx :: rest, c =>
      if f idx then
        match removeFromCorpus c idx with
        | .ok (e, c') => pruneLoop f rest (addDisabled c' e)
        | .error err => (c, some err)
      else pruneLoop f rest c

/-- `CorpusPruning::perform` (pruning.rs lines 53-78): one `below(100)` draw
per entry, then every selected index in `0 .. count_all` is moved from
active to disabled. The final `println!` has no corpus effect and is not
modelled. -/
def perform {A : Type} (p : ℚ) (draws : Nat → Nat) (c : PruningCorpus A) :
    PruningCorpus A × Option PruneError :=
  pruneLoop (doRetainFun p draws) (List.range (countAll c)) c

/-- `perform` as a function of the comparison threshold `t`, the value of
the f64 product (see `doRetainAt`); the source computes that product from
`self.prob` once per comparison, with the same value each time. -/
def performAt {A : Type} (t : ℚ) (draws : Nat → Nat) (c : PruningCorpus A) :
    PruningCorpus A × Option PruneError :=
  pruneLoop (doRetainAt t draws) (List.range (countAll c)) c

/-- Chance, over the uniform `below(100)` draw, that a single entry is
selected for disabling when the f64 product evaluates to `t`. -/
def disableChanceAt (t : ℚ) : ℚ :=
  (((List.range 100).countP (fun r : Nat => decide (t < (r : ℚ)))) : ℚ) / 100

/-- A 100-entry corpus with ids 0..99 and no disabled entries. -/
def mkC100 : PruningCorpus Nat := ⟨(List.range 100).map (fun i => (i, i)), []⟩

/-- A corpus whose active ids 0 and 2 leave a gap at id 1, so that the
pruning loop's removal fails at index 1. -/
def gapCorpus : PruningCorpus Nat := ⟨[(0, 10), (2, 20)], []⟩

/-- The corpus state after pruning `gapCorpus` has moved entry 0 and is about
to fail at index 1. -/
def gapCorpusMid : PruningCorpus Nat := ⟨[(2, 20)], [10]⟩

/-- Selection at retention probability 0 checks the draw for nonzero. -/
theorem doRetainFun_zero (draws : Nat → Nat) (i : Nat) :
    doRetainFun 0 draws i = decide (0 < draws i % 100) := by
  simp [doRetainFun, decide_eq_decide, Nat.cast_pos]

/-- At retention probability 1, no entry is ever selected: every draw is
below 100 and `100 < r` fails. -/
theorem doRetainFun_one (draws : Nat → Nat) (i : Nat) :
    doRetainFun 1 draws i = false := by
  have h : draws i % 100 < 100 := Nat.mod_lt _ (by norm_num)
  simp only [doRetainFun, one_mul, decide_eq_false_iff_not, not_lt]
  exact_mod_cast Nat.le_of_lt h

/-- A loop in which no index is selected does nothing. -/
theorem pruneLoop_of_not_selected {A : Type} (f : Nat → Bool) (idxs : List Nat)
    (c : PruningCorpus A) (h : ∀ i ∈ idxs, f i = false) :
    pruneLoop f idxs c = (c, none) := by
  induction idxs generalizing c with
  | nil => rfl
  | cons i rest ih =>
      have hi : f i = false := h i (List.mem_cons_self i rest)
      simp only [pruneLoop, hi, Bool.false_eq_true, if_false]
      exact ih c fun j hj => h j (List.mem_cons_of_mem _ hj)

/-- A successful removal erases exactly the matching id from the active set
and leaves the disabled set alone. -/
theorem removeFromCorpus_ok {A : Type} (c : PruningCorpus A) (id : Nat) (e : A)
    (c' : PruningCorpus A) (h : removeFromCorpus c id = .ok (e, c')) :
    c'.active = c.active.eraseP (fun q => q.1 == id) ∧ c'.disabled = c.disabled := by
  unfold removeFromCorpus at h
  cases hfind : c.active.find? (fun q => q.1 == id) with
  | none => rw [hfind] at h; cases h
  | some q0 =>
      rw [hfind] at h
      injection h with h1
      injection h1 with h2 h3
      rw [← h3]
      exact ⟨rfl, rfl⟩

/-- An entry whose id is never selected survives the pruning loop in the
active set, whether or not the loop errors out. -/
theorem mem_active_pruneLoop {A : Type} (f : Nat → Bool) (idxs : List Nat)
    (c : PruningCorpus A) (q : Nat × A) (hq : q ∈ c.active)
    (hni : ∀ i ∈ idxs, ¬(f i = true ∧ q.1 = i)) :
    q ∈ (pruneLoop f idxs c).1.active := by
  induction idxs generalizing c with
  | nil => simpa [pruneLoop] using hq
  | cons i rest ih =>
      by_cases hf : f i = true
      · cases hrem : removeFromCorpus c i with
        | error err =>
            simp only [pruneLoop, hf, if_true, hrem]
            exact hq
        | ok pr =>
            obtain ⟨e, c'⟩ := pr
            simp only [pruneLoop, hf, if_true, hrem]
            have hc' := removeFromCorpus_ok c i e c' hrem
            have hqi : q.1 ≠ i := fun hqi =>
              hni i (List.mem_cons_self i rest) ⟨hf, hqi⟩
            have hq' : q ∈ (addDisabled c' e).active := by
              show q ∈ c'.active
              rw [hc'.1]
              exact (List.mem_eraseP_of_neg (by simpa using hqi)).mpr hq
            exact ih (addDisabled c' e) hq'
              fun j hj => hni j (List.mem_cons_of_mem _ hj)
      · simp only [pruneLoop, hf, if_false]
        exact ih c hq fun j hj => hni j (List.mem_cons_of_mem _ hj)

/-- A successful loop appends exactly one disabled entry per selected
index. -/
theorem pruneLoop_ok_disabled_length {A : Type} (f : Nat → Bool) (idxs : List Nat)
    (c c' : PruningCorpus A) (h : pruneLoop f idxs c = (c', none)) :
    c'.disabled.length = c.disabled.length + idxs.countP f := by
  induction idxs generalizing c with
  | nil =>
      simp only [pruneLoop, Prod.mk.injEq] at h
      simp [← h.1]
  | cons i rest ih =>
      by_cases hf : f i = true
      · cases hrem : removeFromCorpus c i with
        | error err => simp [pruneLoop, hf, hrem] at h
        | ok pr =>
            obtain ⟨e, c₂⟩ := pr
            simp only [pruneLoop, hf, if_true, hrem] at h
            have hlen := ih (addDisabled c₂ e) h
            have hc₂ := removeFromCorpus_ok c i e c₂ hrem
            simp only [addDisabled, hc₂.2] at hlen
            simp [List.countP_cons, hf]
            simp at hlen
            omega
      · rw [Bool.not_eq_true] at hf
        simp only [pruneLoop, hf, Bool.false_eq_true, if_false] at h
        have hlen := ih c h
        simp [List.countP_cons, hf]
        omega

/-- Splitting the pruning loop's index list: the tail runs only when the
prefix succeeded, from the prefix's final corpus state. -/
theorem pruneLoop_append {A : Type} (f : Nat → Bool) (l₁ l₂ : List Nat)
    (c : PruningCorpus A) :
    pruneLoop f (l₁ ++ l₂) c =
      match pruneLoop f l₁ c with
      | (c₁, none) => pruneLoop f l₂ c₁
      | (c₁, some e) => (c₁, some e) := by
  induction l₁ generalizing c with
  | nil => rfl
  | cons i rest ih =>
      by_cases hf : f i = true
      · cases hrem : removeFromCorpus c i with
        | error err => simp [pruneLoop, hf, hrem]
        | ok pr =>
            obtain ⟨e, c₂⟩ := pr
            simp only [List.cons_append, pruneLoop, hf, if_true, hrem]
            exact ih (addDisabled c₂ e)
      · simp only [List.cons_append, pruneLoop, hf, if_false]
        exact ih c

/-- Full sweep: when the active entries are exactly a contiguous id block
and every index of the block is selected, everything moves to disabled. -/
theorem pruneLoop_sweep {A : Type} (g : Nat → A) (f : Nat → Bool) :
    ∀ (k s : Nat) (dis : List A),
      (∀ i ∈ List.range' s k, f i = true) →
      pruneLoop f (List.range' s k)
          ⟨(List.range' s k).map (fun i => (i, g i)), dis⟩ =
        (⟨[], dis ++ (List.range' s k).map g⟩, none) := by
  intro k
  induction k with
  | zero => intro s dis _; simp [pruneLoop]
  | succ k ih =>
      intro s dis hall
      rw [List.range'_succ]
      have hfs : f s = true := hall s (by rw [List.range'_succ]; exact List.mem_cons_self _ _)
      have hfind : List.find? (fun q => q.1 == s)
          ((s, g s) :: (List.range' (s + 1) k).map (fun i => (i, g i))) = some (s, g s) :=
        List.find?_cons_of_pos _ (by simp)
      have herase : List.eraseP (fun q => q.1 == s)
          ((s, g s) :: (List.range' (s + 1) k).map (fun i => (i, g i))) =
          (List.range' (s + 1) k).map (fun i => (i, g i)) :=
        List.eraseP_cons_of_pos (by simp)
      have hrem : removeFromCorpus
          (⟨(s, g s) :: (List.range' (s + 1) k).map (fun i => (i, g i)), dis⟩ : PruningCorpus A) s =
          .ok (g s, ⟨(List.range' (s + 1) k).map (fun i => (i, g i)), dis⟩) := by
        simp [removeFromCorpus, hfind, herase]
      have htail := ih (s + 1) (dis ++ [g s])
        (fun i hi => hall i (by rw [List.range'_succ]; exact List.mem_cons_of_mem _ hi))
      simp [pruneLoop, hfs, hrem, addDisabled, htail]

/-- Counting range elements above a threshold. -/
theorem countP_range_lt (n k : Nat) :
    (List.range n).countP (fun r => decide (k < r)) = n - min n (k + 1) := by
  induction n with
  | zero => simp
  | succ n ih =>
      rw [List.range_succ, List.countP_append, ih]
      by_cases h : k < n <;>
        simp [List.countP_cons, h] <;> omega

/-- The exact-product specialization: `perform p` is `performAt` at the
threshold `p * 100`; this matches the source exactly whenever the f64
product does not round, in particular at p = 0 and p = 1. -/
theorem perform_eq_performAt {A : Type} (p : ℚ) (draws : Nat → Nat)
    (c : PruningCorpus A) : perform p draws c = performAt (p * 100) draws c := rfl

/-- Counting the draws strictly above a rational threshold: for
`0 ≤ t ≤ 99` exactly the draws in `⌊t⌋ + 1 .. 99` qualify. -/
theorem countP_range_floor (t : ℚ) (h0 : 0 ≤ t) (h99 : t ≤ 99) :
    (List.range 100).countP (fun r : Nat => decide (t < (r : ℚ))) =
      100 - (⌊t⌋.toNat + 1) := by
  have hk0 : 0 ≤ ⌊t⌋ := Int.floor_nonneg.mpr h0
  have hk99 : ⌊t⌋ ≤ 99 := by exact_mod_cast le_trans (Int.floor_le t) h99
  have hiff : ∀ r : Nat, t < (r : ℚ) ↔ ⌊t⌋.toNat < r := by
    intro r
    constructor
    · intro hlt
      have hfl : ⌊t⌋ < (r : ℤ) := by
        rw [Int.floor_lt]
        exact_mod_cast hlt
      omega
    · intro hlt
      have h1 : t < ⌊t⌋ + 1 := Int.lt_floor_add_one t
      have h2 : (⌊t⌋ : ℚ) + 1 ≤ (r : ℚ) := by
        have hle : ⌊t⌋ + 1 ≤ (r : ℤ) := by omega
        exact_mod_cast hle
      linarith
  have hcongr : (List.range 100).countP (fun r : Nat => decide (t < (r : ℚ))) =
      (List.range 100).countP (fun r : Nat => decide (⌊t⌋.toNat < r)) :=
    List.countP_congr (fun r _ => by simp [hiff r])
  rw [hcongr, countP_range_lt]
  omega

/-- The per-draw disabling chance at threshold `t` in `[0, 99]`. -/
theorem disableChanceAt_eq_floor (t : ℚ) (h0 : 0 ≤ t) (h99 : t ≤ 99) :
    disableChanceAt t = 1 - ((⌊t⌋ : ℚ) + 1) / 100 := by
  unfold disableChanceAt
  rw [countP_range_floor t h0 h99]
  have hk0 : 0 ≤ ⌊t⌋ := Int.floor_nonneg.mpr h0
  have hk99 : ⌊t⌋ ≤ 99 := by exact_mod_cast le_trans (Int.floor_le t) h99
  rw [show (100 - (⌊t⌋.toNat + 1) : Nat) = 99 - ⌊t⌋.toNat from by omega]
  rw [Nat.cast_sub (by omega : ⌊t⌋.toNat ≤ 99)]
  have hcast : ((⌊t⌋.toNat : Nat) : ℚ) = ((⌊t⌋ : ℤ) : ℚ) := by
    exact_mod_cast Int.toNat_of_nonneg hk0
  rw [hcast]
  push_cast
  ring

/-- The per-draw disabling chance vanishes once the threshold reaches 99,
the largest draw. -/
theorem disableChanceAt_of_ge (t : ℚ) (h : 99 ≤ t) : disableChanceAt t = 0 := by
  unfold disableChanceAt
  have hzero : (List.range 100).countP (fun r : Nat => decide (t < (r : ℚ))) = 0 := by
    rw [List.countP_eq_zero]
    intro r hr
    have hlt : r < 100 := List.mem_range.mp hr
    simp only [decide_eq_true_eq, not_lt]
    have hr99 : (r : ℚ) ≤ 99 := by exact_mod_cast (by omega : r ≤ 99)
    linarith
  rw [hzero]
  norm_num

/-- C8 (counterexample): at `prob = 0` the claim's disabling probability
would be `1 − 0 = 1`, yet the f64 product is exactly 0 and the draw `r = 0`
fails `0 < r`, so a one-entry corpus comes through `perform` untouched; the
per-draw disabling chance at threshold 0 is `99/100 ≠ 1`. -/
theorem prune_chance_not_one :
    (perform 0 (fun _ => 0) ⟨[(0, 42)], []⟩).1.disabled = [] ∧
    disableChanceAt 0 = 99 / 100 ∧ (99 / 100 : ℚ) ≠ 1 - 0 := by
  refine ⟨?_, ?_, by norm_num⟩
  · have h : ∀ i ∈ List.range (countAll (⟨[(0, 42)], []⟩ : PruningCorpus Nat)),
        doRetainFun 0 (fun _ => 0) i = false := by
      intro i _
      rw [doRetainFun_zero]
      simp
    rw [perform, pruneLoop_of_not_selected _ _ _ h]
  · rw [disableChanceAt_eq_floor 0 (le_refl 0) (by norm_num), Int.floor_zero]
    norm_num

/-- C8 (amended): each processed entry is moved from active to disabled iff
`t < r`, where `r` is its `below(100)` draw and `t` the value of the f64
product `prob * 100`; over the uniform draw this happens with chance
`1 − (⌊t⌋ + 1)/100` for `0 ≤ t ≤ 99` and `0` for `t ≥ 99` — never exactly
`1 − p` in general: `99/100` at prob = 0, and `71/100` at prob = 0.29,
whose product rounds to `29 − 2 ^ (-48)`; entries whose index is never
selected stay active. -/
theorem prune_disable_chance_spec :
    (∀ t : ℚ, 0 ≤ t → t ≤ 99 →
      disableChanceAt t = 1 - ((⌊t⌋ : ℚ) + 1) / 100) ∧
    (∀ t : ℚ, 99 ≤ t → disableChanceAt t = 0) ∧
    (∀ (t : ℚ) (draws : Nat → Nat) (c : PruningCorpus Nat) (q : Nat × Nat),
      q ∈ c.active →
      (∀ i ∈ List.range (countAll c), ¬(doRetainAt t draws i = true ∧ q.1 = i)) →
      q ∈ (performAt t draws c).1.active) := by
  refine ⟨fun t h0 h99 => disableChanceAt_eq_floor t h0 h99,
    fun t h => disableChanceAt_of_ge t h,
    fun t draws c q hq hni => ?_⟩
  rw [performAt]
  exact mem_active_pruneLoop _ _ _ _ hq hni

/-- C8 (witness): at the threshold `29 − 2 ^ (-48)` — the f64 product at
prob = 0.29 — the disabling chance is `71/100`, and a concrete entry whose
index is never selected (threshold 50, every draw 0) stays active. -/
theorem prune_disable_chance_spec_witness :
    disableChanceAt (29 - 1 / 2 ^ 48) = 71 / 100 ∧
    ((1, 2) : Nat × Nat) ∈ (performAt 50 (fun _ => 0) ⟨[(0, 1), (1, 2)], []⟩).1.active := by
  constructor
  · rw [prune_disable_chance_spec.1 (29 - 1 / 2 ^ 48) (by norm_num) (by norm_num)]
    rw [show ⌊(29 - 1 / 2 ^ 48 : ℚ)⌋ = 28 from by
      rw [Int.floor_eq_iff]
      constructor <;> norm_num]
    norm_num
  · exact prune_disable_chance_spec.2.2 50 (fun _ => 0) ⟨[(0, 1), (1, 2)], []⟩ (1, 2)
      (by simp)
      (by
        intro i _
        simp only [doRetainAt]
        norm_num)

/-- C9 (counterexample): on the 100-entry corpus, `perform` with `p = 1.0`
moves nothing — active stays 100 and disabled 0 — where the claim demands
active 0 and disabled 100; with `p = 0.0` and every draw equal to 1 all
entries are moved — active 0 and disabled 100 — where the claim demands
active 100 and disabled 0. -/
theorem prune_p_extremes_counterexample :
    (perform 1 (fun _ => 0) mkC100).1.active.length = 100 ∧
    (perform 1 (fun _ => 0) mkC100).1.disabled.length = 0 ∧
    (perform 0 (fun _ => 1) mkC100).1.active.length = 0 ∧
    (perform 0 (fun _ => 1) mkC100).1.disabled.length = 100 := by
  have hone : perform 1 (fun _ => 0) mkC100 = (mkC100, none) := by
    rw [perform]
    exact pruneLoop_of_not_selected _ _ _ fun i _ => doRetainFun_one _ i
  have hsweep : perform 0 (fun _ => 1) mkC100 =
      (⟨[], [] ++ (List.range' 0 100).map (fun i => i)⟩, none) := by
    have hcount : countAll mkC100 = 100 := by simp [countAll, mkC100]
    rw [perform, hcount]
    have hactive : mkC100 = ⟨(List.range' 0 100).map (fun i => (i, i)), []⟩ := by
      rw [mkC100, List.range_eq_range']
    rw [hactive, List.range_eq_range']
    exact pruneLoop_sweep (fun i => i) _ 100 0 []
      (fun i _ => by rw [doRetainFun_zero]; simp)
  rw [hone, hsweep]
  simp [mkC100]

/-- C9 (amended): on the 100-entry corpus, `perform` with `p = 1.0` leaves
the corpus unchanged — active 100, disabled 0 — for every draw sequence;
with `p = 0.0` an entry is moved iff its draw is nonzero, so whenever every
draw is nonzero the run ends with active 0, disabled 100 and no error. -/
theorem prune_p_extremes :
    (∀ draws : Nat → Nat, perform 1 draws mkC100 = (mkC100, none)) ∧
    (∀ draws : Nat → Nat, (∀ i, i < 100 → draws i % 100 ≠ 0) →
      (perform 0 draws mkC100).1.active.length = 0 ∧
      (perform 0 draws mkC100).1.disabled.length = 100 ∧
      (perform 0 draws mkC100).2 = none) := by
  constructor
  · intro draws
    rw [perform]
    exact pruneLoop_of_not_selected _ _ _ fun i _ => doRetainFun_one _ i
  · intro draws hdraws
    have hcount : countAll mkC100 = 100 := by simp [countAll, mkC100]
    have hactive : mkC100 = ⟨(List.range' 0 100).map (fun i => (i, i)), []⟩ := by
      rw [mkC100, List.range_eq_range']
    have hsweep : perform 0 draws mkC100 =
        (⟨[], [] ++ (List.range' 0 100).map (fun i => i)⟩, none) := by
      rw [perform, hcount, hactive, List.range_eq_range']
      refine pruneLoop_sweep (fun i => i) _ 100 0 [] fun i hi => ?_
      have hilt : i < 100 := by
        have := List.mem_range'_1.mp hi
        omega
      rw [doRetainFun_zero]
      simpa [Nat.pos_iff_ne_zero] using hdraws i hilt
    rw [hsweep]
    simp

/-- C9 (witness): the amended statement at the concrete draw streams 3
(for `p = 1`) and 1 (for `p = 0`). -/
theorem prune_p_extremes_witness :
    perform 1 (fun _ => 3) mkC100 = (mkC100, none) ∧
    (perform 0 (fun _ => 1) mkC100).1.active.length = 0 ∧
    (perform 0 (fun _ => 1) mkC100).1.disabled.length = 100 :=
  ⟨prune_p_extremes.1 (fun _ => 3),
   (prune_p_extremes.2 (fun _ => 1) (fun _ _ => by norm_num)).1,
   (prune_p_extremes.2 (fun _ => 1) (fun _ _ => by norm_num)).2.1⟩

/-- C10: `perform` is not atomic on error: with all indices before `j`
processed successfully into the intermediate corpus, a selected index `j`
whose id is missing from the active set makes `perform` return the
`idNotFound j` error immediately, handing back exactly that intermediate
corpus, whose disabled set still holds one moved entry per previously
selected index (no rollback). -/
theorem perform_error_keeps_prior_moves {A : Type} (p : ℚ) (draws : Nat → Nat)
    (c c₁ : PruningCorpus A) (j : Nat) (hj : j < countAll c)
    (hpre : pruneLoop (doRetainFun p draws) (List.range j) c = (c₁, none))
    (hsel : doRetainFun p draws j = true)
    (habs : c₁.active.find? (fun q => q.1 == j) = none) :
    perform p draws c = (c₁, some (.idNotFound j)) ∧
    c₁.disabled.length = c.disabled.length +
      (List.range j).countP (doRetainFun p draws) := by
  refine ⟨?_, pruneLoop_ok_disabled_length _ _ _ _ hpre⟩
  have hdecomp : List.range (countAll c) =
      List.range j ++ j :: List.range' (j + 1) (countAll c - j - 1) := by
    have h1 : List.range' 0 j ++ List.range' (0 + 1 * j) (countAll c - j) =
        List.range' 0 (countAll c - j + j) := List.range'_append 0 j (countAll c - j) 1
    rw [show countAll c - j = (countAll c - j - 1) + 1 from by omega,
      List.range'_succ] at h1
    simp only [Nat.zero_add, Nat.one_mul] at h1
    rw [show countAll c - j - 1 + 1 + j = countAll c from by omega] at h1
    rw [List.range_eq_range' (countAll c), List.range_eq_range' j]
    exact h1.symm
  rw [perform, hdecomp, pruneLoop_append, hpre]
  have hrem : removeFromCorpus c₁ j = .error (.idNotFound j) := by
    rw [removeFromCorpus, habs]
  simp only [pruneLoop, hsel, if_true, hrem]

/-- C10 (witness): pruning `gapCorpus` at `p = 0` with all draws 1 moves
entry 0, fails at the missing id 1, and returns the intermediate corpus with
the moved entry still disabled. -/
theorem perform_error_keeps_prior_moves_witness :
    perform 0 (fun _ => 1) gapCorpus = (gapCorpusMid, some (.idNotFound 1)) ∧
    gapCorpusMid.disabled.length = gapCorpus.disabled.length +
      (List.range 1).countP (doRetainFun 0 (fun _ => 1)) :=
  perform_error_keeps_prior_moves 0 (fun _ => 1) gapCorpus gapCorpusMid 1
    (by simp [countAll, gapCorpus])
    (by
      rw [show List.range 1 = [0] from by simp [List.range_succ]]
      have hf : doRetainFun 0 (fun _ => 1) 0 = true := by
        rw [doRetainFun_zero]; simp
      have hrem : removeFromCorpus gapCorpus 0 = .ok (10, ⟨[(2, 20)], []⟩) := by
        rw [removeFromCorpus]
        simp [gapCorpus]
      simp [pruneLoop, hf, hrem, addDisabled, gapCorpusMid])
    (by rw [doRetainFun_zero]; simp)
    (by simp [gapCorpusMid])

end Pruning
